import Mathlib

/-
Verification of the tree-statistics core (core/tree/stats.py): tree build,
root-path / leaf-path extraction with quota sampling, serializations, and
coverage statistics.  Python strings are embedded as `List Char`; the external
collaborators `desensitize` and `formalize` (tree/desensitizer.py, outside this
repository's core) are opaque function parameters; `random.sample` is an
oracle parameter.  Recursion-depth exhaustion (RecursionError) is embedded as
fuel exhaustion.
-/

namespace CsnStats

abbrev Str := List Char

/-- Python `sep.join(pieces)` for a one-character separator. -/
def joinChar (sep : Char) : List Str → Str
  | [] => []
  | [x] => x
  | x :: y :: rest => x ++ sep :: joinChar sep (y :: rest)

/-- Python `s.split(sep)` for a one-character separator:
`"".split(sep) = [""]`, and a trailing separator yields a trailing `""`. -/
def splitOnChar (sep : Char) : Str → List Str
  | [] => [[]]
  | c :: rest =>
    if c = sep then [] :: splitOnChar sep rest
    else
      match splitOnChar sep rest with
      | [] => [[c]]
      | piece :: more => (c :: piece) :: more

/-- `value.split('|')` — the separator used for sub-tokens. -/
def splitPipe (s : Str) : List Str := splitOnChar '|' s

/-- Python `re.split('[(|)]', s)`: split on any of the three bracket/pipe
characters. -/
def splitBrk : Str → List Str
  | [] => [[]]
  | c :: rest =>
    if c = '(' ∨ c = '|' ∨ c = ')' then [] :: splitBrk rest
    else
      match splitBrk rest with
      | [] => [[c]]
      | piece :: more => (c :: piece) :: more

/-- The decimal digit character for `d < 10` (Python `str` of one digit). -/
def digitChar (d : Nat) : Char := Char.ofNat (48 + d)

/-- Little-endian decimal digits of `n`, with explicit fuel (`fuel ≥ n`
suffices); empty for `n = 0`. -/
def digitsRevAux : Nat → Nat → List Nat
  | _, 0 => []
  | 0, _ + 1 => []
  | fuel + 1, n + 1 => (n + 1) % 10 :: digitsRevAux fuel ((n + 1) / 10)

/-- Python `str(n)` for a natural number: decimal notation. -/
def natStr (n : Nat) : Str :=
  if n = 0 then ['0'] else (digitsRevAux n n).reverse.map digitChar

/-- Value of a little-endian digit list. -/
def valRev : List Nat → Nat
  | [] => 0
  | d :: ds => d + 10 * valRev ds

theorem valRev_digitsRevAux : ∀ fuel n, n ≤ fuel → valRev (digitsRevAux fuel n) = n := by
  intro fuel
  induction fuel with
  | zero =>
    intro n hn
    interval_cases n
    simp [digitsRevAux, valRev]
  | succ fuel ih =>
    intro n hn
    cases n with
    | zero => simp [digitsRevAux, valRev]
    | succ m =>
      have hdiv : (m + 1) / 10 ≤ fuel := by
        have : (m + 1) / 10 < m + 1 := Nat.div_lt_self (Nat.succ_pos m) (by omega)
        omega
      simp only [digitsRevAux, valRev, ih _ hdiv]
      omega

theorem digitsRevAux_lt_ten : ∀ fuel n d, d ∈ digitsRevAux fuel n → d < 10 := by
  intro fuel
  induction fuel with
  | zero =>
    intro n d hd
    cases n <;> simp [digitsRevAux] at hd
  | succ fuel ih =>
    intro n d hd
    cases n with
    | zero => simp [digitsRevAux] at hd
    | succ m =>
      simp only [digitsRevAux, List.mem_cons] at hd
      rcases hd with h | h
      · omega
      · exact ih _ _ h

theorem digitChar_inj_fin : ∀ d e : Fin 10, digitChar d.val = digitChar e.val → d = e := by
  decide

theorem digitChar_inj {d e : Nat} (hd : d < 10) (he : e < 10)
    (h : digitChar d = digitChar e) : d = e := by
  have := digitChar_inj_fin ⟨d, hd⟩ ⟨e, he⟩ h
  exact congrArg Fin.val this

theorem digitChar_ne_tilde_fin : ∀ d : Fin 10, digitChar d.val ≠ '~' := by
  decide

theorem map_digitChar_inj : ∀ L1 L2 : List Nat, (∀ d ∈ L1, d < 10) → (∀ d ∈ L2, d < 10) →
    L1.map digitChar = L2.map digitChar → L1 = L2 := by
  intro L1
  induction L1 with
  | nil => intro L2 _ _ h; cases L2 <;> simp_all
  | cons d ds ih =>
    intro L2 h1 h2 h
    cases L2 with
    | nil => simp at h
    | cons e es =>
      simp only [List.map_cons, List.cons.injEq] at h
      have hde : d = e := digitChar_inj (h1 d (by simp)) (h2 e (by simp)) h.1
      have := ih es (fun x hx => h1 x (by simp [hx])) (fun x hx => h2 x (by simp [hx])) h.2
      simp [hde, this]

theorem natStr_inj : ∀ m n : Nat, natStr m = natStr n → m = n := by
  have key : ∀ m n : Nat, m ≠ 0 → n ≠ 0 → natStr m = natStr n → m = n := by
    intro m n hm hn h
    simp only [natStr, if_neg hm, if_neg hn] at h
    have h2 : (digitsRevAux m m).reverse = (digitsRevAux n n).reverse :=
      map_digitChar_inj _ _
        (fun d hd => digitsRevAux_lt_ten m m d (List.mem_reverse.mp hd))
        (fun d hd => digitsRevAux_lt_ten n n d (List.mem_reverse.mp hd)) h
    have h3 : digitsRevAux m m = digitsRevAux n n := List.reverse_injective h2
    have := valRev_digitsRevAux m m le_rfl
    rw [h3, valRev_digitsRevAux n n le_rfl] at this
    omega
  have zero_case : ∀ n : Nat, n ≠ 0 → natStr n ≠ natStr 0 := by
    intro n hn h
    simp only [natStr, if_neg hn, if_pos rfl] at h
    have hz : '0' = digitChar 0 := rfl
    have hL : ∀ d ∈ (digitsRevAux n n).reverse, d < 10 :=
      fun d hd => digitsRevAux_lt_ten n n d (List.mem_reverse.mp hd)
    have : (digitsRevAux n n).reverse = [0] := by
      have := map_digitChar_inj (digitsRevAux n n).reverse [0] hL (by simp) (by simpa [hz] using h)
      exact this
    have hval := valRev_digitsRevAux n n le_rfl
    have : digitsRevAux n n = [0] := by
      have hrr := congrArg List.reverse this
      simpa using hrr
    rw [this] at hval
    simp [valRev] at hval
    exact hn hval.symm
  intro m n h
  by_cases hm : m = 0
  · by_cases hn : n = 0
    · omega
    · subst hm; exact absurd h.symm (zero_case n hn)
  · by_cases hn : n = 0
    · subst hn; exact absurd h (zero_case m hm)
    · exact key m n hm hn h

theorem tilde_not_mem_natStr (n : Nat) : '~' ∉ natStr n := by
  by_cases hn : n = 0
  · subst hn; simp [natStr]
  · simp only [natStr, if_neg hn]
    intro hmem
    obtain ⟨d, hd, hde⟩ := List.mem_map.mp hmem
    have h10 : d < 10 := digitsRevAux_lt_ten n n d (List.mem_reverse.mp hd)
    exact digitChar_ne_tilde_fin ⟨d, h10⟩ hde

theorem natStr_ne_nil (n : Nat) : natStr n ≠ [] := by
  by_cases hn : n = 0
  · subst hn; simp [natStr]
  · simp only [natStr, if_neg hn]
    intro h
    have h2 : digitsRevAux n n = [] := by
      cases hrev : (digitsRevAux n n).reverse with
      | nil => simpa using congrArg List.reverse hrev
      | cons a tl => rw [hrev] at h; simp at h
    have := valRev_digitsRevAux n n le_rfl
    rw [h2] at this
    simp [valRev] at this
    exact hn this.symm

/-- Splitting a one-separator concatenation is unambiguous when the pieces are
separator-free. -/
theorem sep_split (c : Char) : ∀ x1 x2 y1 y2 : Str, c ∉ x1 → c ∉ x2 →
    x1 ++ c :: y1 = x2 ++ c :: y2 → x1 = x2 ∧ y1 = y2 := by
  intro x1
  induction x1 with
  | nil =>
    intro x2 y1 y2 _ h2 h
    cases x2 with
    | nil => simpa using h
    | cons b x2' =>
      simp only [List.nil_append, List.cons_append, List.cons.injEq] at h
      exact absurd (h.1 ▸ List.mem_cons_self b x2') (by simpa [h.1] using h2)
  | cons a x1' ih =>
    intro x2 y1 y2 h1 h2 h
    cases x2 with
    | nil =>
      simp only [List.cons_append, List.nil_append, List.cons.injEq] at h
      exact absurd (h.1 ▸ List.mem_cons_self a x1') (by simpa [h.1] using h1)
    | cons b x2' =>
      simp only [List.cons_append, List.cons.injEq] at h
      have hmem1 : c ∉ x1' := fun hx => h1 (List.mem_cons_of_mem a hx)
      have hmem2 : c ∉ x2' := fun hx => h2 (List.mem_cons_of_mem b hx)
      obtain ⟨hx, hy⟩ := ih x2' y1 y2 hmem1 hmem2 h.2
      exact ⟨by simp [h.1, hx], hy⟩

/-- The position mark built in `TS.traverse`:
`mark = '@' + '~'.join(str(i) for i in start_point + end_point)`. -/
def markOf (sp ep : Nat × Nat) : Str :=
  '@' :: joinChar '~' [natStr sp.1, natStr sp.2, natStr ep.1, natStr ep.2]

theorem markOf_unfold (sp ep : Nat × Nat) :
    markOf sp ep =
      '@' :: (natStr sp.1 ++ '~' :: (natStr sp.2 ++ '~' :: (natStr ep.1 ++ '~' :: natStr ep.2))) := by
  rfl

/-- The mark string uniquely determines the four coordinates. -/
theorem markOf_inj {sp ep sp' ep' : Nat × Nat}
    (h : markOf sp ep = markOf sp' ep') : sp = sp' ∧ ep = ep' := by
  rw [markOf_unfold, markOf_unfold] at h
  have h0 := List.cons.injEq .. ▸ h
  have h1 : natStr sp.1 ++ '~' :: (natStr sp.2 ++ '~' :: (natStr ep.1 ++ '~' :: natStr ep.2)) =
      natStr sp'.1 ++ '~' :: (natStr sp'.2 ++ '~' :: (natStr ep'.1 ++ '~' :: natStr ep'.2)) := by
    simpa using h
  obtain ⟨e1, hrest1⟩ := sep_split '~' _ _ _ _ (tilde_not_mem_natStr _) (tilde_not_mem_natStr _) h1
  obtain ⟨e2, hrest2⟩ := sep_split '~' _ _ _ _ (tilde_not_mem_natStr _) (tilde_not_mem_natStr _) hrest1
  obtain ⟨e3, e4⟩ := sep_split '~' _ _ _ _ (tilde_not_mem_natStr _) (tilde_not_mem_natStr _) hrest2
  have q1 := natStr_inj _ _ e1
  have q2 := natStr_inj _ _ e2
  have q3 := natStr_inj _ _ e3
  have q4 := natStr_inj _ _ e4
  exact ⟨Prod.ext q1 q2, Prod.ext q3 q4⟩

/-- A node of the opaque parser tree (the tree_sitter boundary): a kind
string, start/end (row, column) coordinates, and an ordered child list. -/
inductive PNode where
  | mk (kind : Str) (sp ep : Nat × Nat) (children : List PNode)

def PNode.kind : PNode → Str
  | .mk k _ _ _ => k

def PNode.sp : PNode → Nat × Nat
  | .mk _ s _ _ => s

def PNode.ep : PNode → Nat × Nat
  | .mk _ _ e _ => e

def PNode.children : PNode → List PNode
  | .mk _ _ _ cs => cs

/-- The node type built by `TS.traverse` (class TSNode): type, value, mark,
the `eldest` flag (initialized `False` in `TSNode.__init__`), and the
multi-way children.  The LC-RS view (`left_child`/`right_sibling`) is
recovered positionally from `children`. -/
inductive TSTree where
  | mk (type : Str) (value : Str) (mark : Str) (eldest : Bool) (children : List TSTree)

def TSTree.type : TSTree → Str
  | .mk t _ _ _ _ => t

def TSTree.value : TSTree → Str
  | .mk _ v _ _ _ => v

def TSTree.mark : TSTree → Str
  | .mk _ _ m _ _ => m

def TSTree.eldest : TSTree → Bool
  | .mk _ _ _ e _ => e

def TSTree.children : TSTree → List TSTree
  | .mk _ _ _ _ cs => cs

mutual

/-- Node count of an opaque parser tree (fuel bound for the build). -/
def psize : PNode → Nat
  | .mk _ _ _ cs => 1 + psizeList cs

def psizeList : List PNode → Nat
  | [] => 0
  | p :: rest => psize p + psizeList rest

end

mutual

/-- Node count of a built tree (fuel bound for the breadth-first
traversals). -/
def tsize : TSTree → Nat
  | .mk _ _ _ _ cs => 1 + tsizeList cs

def tsizeList : List TSTree → Nat
  | [] => 0
  | t :: rest => tsize t + tsizeList rest

end

theorem tsizeList_eq : ∀ l : List TSTree, tsizeList l = (l.map tsize).sum := by
  intro l
  induction l with
  | nil => rfl
  | cons t rest ih => simp [tsizeList, ih]

theorem tsize_eq (t : TSTree) : tsize t = 1 + (t.children.map tsize).sum := by
  cases t with
  | mk ty v m e cs => simp [tsize, TSTree.children, tsizeList_eq]

theorem tsize_pos (t : TSTree) : 1 ≤ tsize t := by
  rw [tsize_eq]; omega

theorem psizeList_eq : ∀ l : List PNode, psizeList l = (l.map psize).sum := by
  intro l
  induction l with
  | nil => rfl
  | cons t rest ih => simp [psizeList, ih]

theorem psize_eq (p : PNode) : psize p = 1 + (p.children.map psize).sum := by
  cases p with
  | mk k sp ep cs => simp [psize, PNode.children, psizeList_eq]

theorem psize_pos (p : PNode) : 1 ≤ psize p := by
  rw [psize_eq]; omega

/-- Python `c` in `[a-z]` (the regex character class used by the camel-case
splitter). -/
def asciiLower (c : Char) : Bool := 'a' ≤ c && c ≤ 'z'

/-- Python `c` in `[A-Z]`. -/
def asciiUpper (c : Char) : Bool := 'A' ≤ c && c ≤ 'Z'

/-- Body of `camel_case_split`: the regex
`.+?(?:(?<=[a-z])(?=[A-Z])|(?<=[A-Z])(?=[A-Z][a-z])|$)` cuts the identifier
after every lowercase→uppercase boundary and before every
uppercase-then-lowercase pair preceded by an uppercase letter. -/
def camelAux (acc : List Char) : List Char → List Str
  | [] => [acc.reverse]
  | a :: rest =>
    match rest with
    | [] => [(a :: acc).reverse]
    | b :: rest2 =>
      if (asciiLower a && asciiUpper b) ||
          (asciiUpper a && asciiUpper b &&
            (match rest2 with | c :: _ => asciiLower c | [] => false)) then
        (a :: acc).reverse :: camelAux [] (b :: rest2)
      else
        camelAux (a :: acc) (b :: rest2)

/-- `camel_case_split(identifier)`; the empty string has no `.+?` match and
yields `[]`. -/
def camelCaseSplit (s : Str) : List Str :=
  match s with
  | [] => []
  | _ => camelAux [] s

/-- `TS.tokenize`: split on `'_'`, camel-case split each block, lowercase,
join with `'|'`. -/
def tokenize (term : Str) : Str :=
  joinChar '|'
    ((((splitOnChar '_' term).map camelCaseSplit).flatten).map (fun b => b.map Char.toLower))

/-- Python `s.lower()` (ASCII behaviour). -/
def pyLower (s : Str) : Str := s.map Char.toLower

/-- Python `s.strip()`: remove leading and trailing whitespace. -/
def pyStrip (s : Str) : Str :=
  ((s.dropWhile Char.isWhitespace).reverse.dropWhile Char.isWhitespace).reverse

/-- `TS.query_token`: slice the source line(s) by the node's coordinates; a
node spanning several lines takes only the start line from its start column
(the documented deliberate simplification). -/
def queryToken (codeLines : List Str) (p : PNode) : Str :=
  if p.sp.1 ≠ p.ep.1 then (codeLines.getD p.sp.1 []).drop p.sp.2
  else ((codeLines.getD p.sp.1 []).take p.ep.2).drop p.sp.2

/-- `TS.traverse`, node construction part, structurally recursive on a fuel
bound (any fuel at least the tree depth computes the same result; `build`
supplies `sizeOf`, which suffices): each opaque node becomes a TSNode with
lowercased/stripped type, position mark, and a value that is `desensitize`d
for non-terminals and tokenized + `formalize`d for terminals.  The `eldest`
flag is initialized `False` and `traverse` never writes it. -/
def buildAux (des form : Str → Str) (codeLines : List Str) : Nat → PNode → TSTree
  | 0, _ => TSTree.mk [] [] [] false []
  | fuel + 1, p =>
    let ty := pyStrip (pyLower p.kind)
    let mk := markOf p.sp p.ep
    let v0 := queryToken codeLines p
    if p.children.isEmpty then
      TSTree.mk ty (form (tokenize v0)) mk false []
    else
      TSTree.mk ty (des v0) mk false (p.children.map fun c => buildAux des form codeLines fuel c)

/-- The tree produced by `TS.traverse`. -/
def build (des form : Str → Str) (codeLines : List Str) (p : PNode) : TSTree :=
  buildAux des form codeLines (psize p) p

/-- All nodes of a built tree (root first), fuel-structural. -/
def allNodesAux : Nat → TSTree → List TSTree
  | 0, _ => []
  | fuel + 1, t => t :: (t.children.map fun c => allNodesAux fuel c).flatten

def allNodes (t : TSTree) : List TSTree := allNodesAux (tsize t) t

/-- `eldest_counter` of `TS.traverse`: one increment per node that has
children. -/
def countEldestAux : Nat → TSTree → Nat
  | 0, _ => 0
  | fuel + 1, t =>
    (if t.children.isEmpty then 0 else 1) + (t.children.map fun c => countEldestAux fuel c).sum

def countEldest (t : TSTree) : Nat := countEldestAux (tsize t) t

/-- `tree_style`: AST | SPT || HST | HPT. -/
inductive Style where
  | AST | SPT | HST | HPT
deriving DecidableEq

/-- `path_style`: L2L | UD | anything else (the U/D-labelled rendering). -/
inductive PathStyle where
  | L2L | UD | U2D
deriving DecidableEq

/-- The breadth-first identifier-value collection of `TSNode.gen_root_path`
(hierarchy styles): every `identifier` node contributes its value split on
`'|'`. -/
def bfsIdentValues : List TSTree → List Str
  | [] => []
  | t :: q =>
    (if t.type = "identifier".data then splitPipe t.value else []) ++
      bfsIdentValues (q ++ t.children)
termination_by q => (q.map tsize).sum
decreasing_by
  simp_wf
  have h1 := tsize_eq t
  omega

/-- The `while ptr.parent` climb of `TSNode.gen_root_path`, iterated over the
ancestors from the terminal's parent up to the root, threading the
accumulated labels and the `hpt_ptr` state.  Every appended label carries
`self.mark` — the mark of the terminal the path is generated for. -/
def genRootPathLoop (style : Style) (tMark : Str) :
    List TSTree → List Str → Option TSTree → List Str × Option TSTree
  | [], path, hpt => (path, hpt)
  | ptr :: rest, path, hpt =>
    match style with
    | .AST => genRootPathLoop style tMark rest (path ++ [ptr.type ++ tMark]) hpt
    | .SPT => genRootPathLoop style tMark rest (path ++ [ptr.value ++ tMark]) hpt
    | .HST =>
      if hpt.isNone ∧ ptr.type = "expression_statement".data then
        genRootPathLoop style tMark rest [] (some ptr)
      else genRootPathLoop style tMark rest (path ++ [ptr.type ++ tMark]) hpt
    | .HPT =>
      if hpt.isNone ∧ ptr.type = "expression_statement".data then
        genRootPathLoop style tMark rest [] (some ptr)
      else genRootPathLoop style tMark rest (path ++ [ptr.value ++ tMark]) hpt

/-- `TSNode.gen_root_path` for a terminal whose ancestors (root first) are
`anc`: returns the reversed accumulated label list and `value + self.mark`. -/
def genRootPath (style : Style) (anc : List TSTree) (t : TSTree) : List Str × Str :=
  let res := genRootPathLoop style t.mark anc.reverse [] none
  let v :=
    match res.2 with
    | some hp => joinChar '|' (bfsIdentValues [hp])
    | none => t.value
  (res.1.reverse, v ++ t.mark)

/-- One terminal's record: its type, its generated root path and its anchor
value (mark included), as consumed by `TS.gen_root_paths`. -/
structure TRec where
  type : Str
  rootPath : List Str
  value : Str
deriving DecidableEq

/-- The breadth-first terminal enumeration of `TS.traverse` combined with the
per-terminal `gen_root_path` call of `TS.gen_root_paths`: the queue holds
`(ancestors, node)` pairs; terminals are emitted in discovery order.  The
fuel is a termination device: any fuel at least the total node count of the
queued trees computes the stable result. -/
def collectRecsAux (style : Style) : Nat → List (List TSTree × TSTree) → List TRec
  | 0, _ => []
  | _ + 1, [] => []
  | fuel + 1, (anc, t) :: q =>
    if t.children.isEmpty then
      ⟨t.type, (genRootPath style anc t).1, (genRootPath style anc t).2⟩ ::
        collectRecsAux style fuel q
    else
      collectRecsAux style fuel (q ++ t.children.map fun c => (anc ++ [t], c))

/-- The per-tree record list: build the tree from the opaque parser output,
then generate each terminal's root path. -/
def pipelineRecs (style : Style) (des form : Str → Str) (codeLines : List Str)
    (p : PNode) : List TRec :=
  let root := build des form codeLines p
  collectRecsAux style (tsize root) [([], root)]

abbrev RP := List Str × Str

/-- The bucket partition of `TS.gen_root_paths`: among terminals of type
`identifier` with non-empty path and value, `root_paths_1` collects those
with `len(value) > 1` (string length of the mark-suffixed value) and
`root_paths_0` the rest. -/
def rootPathBuckets : List TRec → List RP × List RP
  | [] => ([], [])
  | r :: rest =>
    let res := rootPathBuckets rest
    if r.type = "identifier".data ∧ r.rootPath ≠ [] ∧ r.value ≠ [] then
      if 1 < r.value.length then ((r.rootPath, r.value) :: res.1, res.2)
      else (res.1, (r.rootPath, r.value) :: res.2)
    else res

/-- `TS.gen_root_paths` (threshold 20), with `random.sample` supplied as the
oracle `s`. -/
def genRootPaths (s : List RP → Nat → List RP) (recs : List TRec) : List RP :=
  let b := rootPathBuckets recs
  let margin : Int := 20 - b.1.length
  if margin < 0 then s b.1 20
  else if 0 < margin then b.1 ++ s b.2 (min margin.toNat b.2.length)
  else b.1

/-- The longest-common-prefix length computed by the `while` loop of
`TS.merge_paths`. -/
def lcpLen : List Str → List Str → Nat
  | x :: xs, y :: ys => if x = y then 1 + lcpLen xs ys else 0
  | _, _ => 0

/-- Python list indexing with negative-index wraparound (`u_path[s - 1]`
takes the last element when `s = 0`); out-of-range access is an upstream
precondition violation (IndexError) and is given a junk value here. -/
def pyGet (l : List Str) (i : Int) : Str :=
  if 0 ≤ i then l.getD i.toNat []
  else l.getD (l.length - (-i).toNat) []

/-- `TS.merge_paths`. -/
def mergePaths (u v : List Str) : List Str × Str × List Str :=
  let s := lcpLen u v
  ((u.drop s).reverse, pyGet u ((s : Int) - 1), v.drop s)

/-- The qualification test of `TS.gen_leaf_paths` (width threshold 2, length
threshold 8). -/
def leafQualifies (u v : List Str) : Prop :=
  let r := mergePaths u v
  1 ≤ r.1.length ∧ 1 ≤ r.2.2.length ∧
    ((r.1.length : Int) - r.2.2.length).natAbs ≤ 2 ∧
    r.1.length + 1 + r.2.2.length ≤ 8

instance (u v : List Str) : Decidable (leafQualifies u v) := by
  unfold leafQualifies
  exact inferInstance

/-- Python `'sep'.join(pieces)` for a multi-character separator. -/
def joinStrs (sep : Str) : List Str → Str
  | [] => []
  | [x] => x
  | x :: y :: rest => x ++ sep ++ joinStrs sep (y :: rest)

/-- The middle segment of a leaf path, per `path_style`. -/
def middleOf (pstyle : PathStyle) (pre : List Str) (lca : Str) (suf : List Str) : Str :=
  match pstyle with
  | .L2L => joinChar '|' (pre ++ [lca] ++ suf)
  | .UD =>
    joinChar '|'
      ((List.replicate pre.length 'U' ++ List.replicate suf.length 'D').map fun c => [c])
  | .U2D =>
    joinStrs "|U|".data pre ++ "|U|".data ++ lca ++ "|D|".data ++ joinStrs "|D|".data suf

/-- `itertools.combinations(iterable, r=2)` over a list. -/
def pairsOf {α : Type} : List α → List (α × α)
  | [] => []
  | x :: xs => (xs.map fun y => (x, y)) ++ pairsOf xs

/-- The pair loop of `TS.gen_leaf_paths`: early-skip once the higher quota
tiers are full, qualify, render, and classify the leaf path into the
three tiers by how many endpoint values have `len > 1`. -/
def processPairs (pstyle : PathStyle) :
    List (RP × RP) → List Str → List Str → List Str → List Str × List Str × List Str
  | [], lp2, lp1, lp0 => (lp2, lp1, lp0)
  | (u, v) :: rest, lp2, lp1, lp0 =>
    let skip : Bool :=
      if 20 ≤ lp2.length then decide (u.2.length ≤ 1 ∨ v.2.length ≤ 1)
      else if 20 ≤ lp2.length + lp1.length then decide (u.2.length ≤ 1 ∧ v.2.length ≤ 1)
      else false
    if skip then processPairs pstyle rest lp2 lp1 lp0
    else if leafQualifies u.1 v.1 then
      let r := mergePaths u.1 v.1
      let middle := middleOf pstyle r.1 r.2.1 r.2.2
      let lp := u.2 ++ '|' :: middle ++ '|' :: v.2
      if 1 < u.2.length ∨ 1 < v.2.length then
        if 1 < u.2.length ∧ 1 < v.2.length then processPairs pstyle rest (lp2 ++ [lp]) lp1 lp0
        else processPairs pstyle rest lp2 (lp1 ++ [lp]) lp0
      else processPairs pstyle rest lp2 lp1 (lp0 ++ [lp])
    else processPairs pstyle rest lp2 lp1 lp0

/-- `TS.gen_leaf_paths` (threshold 20), with the two `random.sample` calls
supplied as the oracle `sL` and the root-path oracle `sR`. -/
def genLeafPaths (sL : List Str → Nat → List Str) (sR : List RP → Nat → List RP)
    (pstyle : PathStyle) (recs : List TRec) : List Str :=
  let rootPaths := genRootPaths sR recs
  let res := processPairs pstyle (pairsOf rootPaths) [] [] []
  let margin : Int := 20 - res.1.length
  if margin < 0 then sL res.1 20
  else if 0 < margin then
    let lp := res.1 ++ sL res.2.1 (min margin.toNat res.2.1.length)
    let margin2 : Int := 20 - lp.length
    if 0 < margin2 then lp ++ sL res.2.2 (min margin2.toNat res.2.2.length) else lp
  else res.1

inductive PathsMode where
  | rootpath | leafpath

/-- `code2paths` (mode `rootpath` or `leafpath`), with the parser boundary
abstracted: the opaque tree and the split source lines are inputs.  `TS` is
constructed with the default `tree_style='SPT'` and `path_style='L2L'`. -/
def code2paths (sL : List Str → Nat → List Str) (sR : List RP → Nat → List RP)
    (des form : Str → Str) (codeLines : List Str) (p : PNode) (mode : PathsMode) :
    List Str :=
  let recs := pipelineRecs .SPT des form codeLines p
  match mode with
  | .rootpath => ((genRootPaths sR recs).map fun rp => rp.1 ++ splitPipe rp.2).flatten
  | .leafpath => ((genLeafPaths sL sR .L2L recs).map splitPipe).flatten

/-- `self.terminal_nodes` as accumulated by `TS.gen_root_paths`: every
terminal's anchor value, in terminal order. -/
def terminalNodesOf (recs : List TRec) : List Str := recs.map TRec.value

/-- `self.nonterminal_nodes` as accumulated by `TS.gen_root_paths`: every
terminal's root-path labels, in order. -/
def nonterminalNodesOf (recs : List TRec) : List Str := (recs.map TRec.rootPath).flatten

/-- `self.rootpath_terminal_nodes`: the anchor values of the sampled root
paths. -/
def rootpathTerminalNodesOf (s : List RP → Nat → List RP) (recs : List TRec) : List Str :=
  (genRootPaths s recs).map Prod.snd

/-- `self.rootpath_nonterminal_nodes`: the labels of the sampled root
paths. -/
def rootpathNonterminalNodesOf (s : List RP → Nat → List RP) (recs : List TRec) : List Str :=
  ((genRootPaths s recs).map Prod.fst).flatten

/-- `source` of `source, *middle, target = leaf_path.split('|')`. -/
def lpSource (lp : Str) : Str := (splitPipe lp).headD []

/-- `target` of `source, *middle, target = leaf_path.split('|')`. -/
def lpTarget (lp : Str) : Str := (splitPipe lp).getLastD []

/-- `middle` of `source, *middle, target = leaf_path.split('|')`. -/
def lpMiddle (lp : Str) : List Str := ((splitPipe lp).drop 1).dropLast

/-- `self.leafpath_terminal_nodes` as accumulated by `TS.gen_leaf_paths`:
the re-split source and target of every selected leaf path. -/
def leafpathTerminalNodesOf (sL : List Str → Nat → List Str)
    (sR : List RP → Nat → List RP) (pstyle : PathStyle) (recs : List TRec) : List Str :=
  ((genLeafPaths sL sR pstyle recs).map fun lp => [lpSource lp, lpTarget lp]).flatten

/-- `self.leafpath_nonterminal_nodes` as accumulated by
`TS.gen_leaf_paths`. -/
def leafpathNonterminalNodesOf (sL : List Str → Nat → List Str)
    (sR : List RP → Nat → List RP) (pstyle : PathStyle) (recs : List TRec) : List Str :=
  ((genLeafPaths sL sR pstyle recs).map lpMiddle).flatten

/-- `TSNode.gen_sbt`: render `value ( children-rendered ) value` over the
multi-way tree, fuel-structural (any fuel at least the tree depth computes
the stable result; `genSbt` supplies `sizeOf`). -/
def sbtAux : Nat → TSTree → Str
  | 0, _ => []
  | fuel + 1, t => t.value ++ '(' :: (t.children.map fun c => sbtAux fuel c).flatten ++ ')' :: t.value

def genSbt (t : TSTree) : Str := sbtAux (tsize t) t

/-- `TS.gen_sbt_representation`: render, split on the bracket/pipe characters,
drop empty pieces. -/
def genSbtRepresentation (t : TSTree) : List Str :=
  (splitBrk (genSbt t)).filter (· ≠ [])

/-- `TSNode.gen_lcrs` on the left-child/right-sibling view, with the Python
recursion depth limit embedded as fuel: `none` models RecursionError.  A
node's LC-RS left child is its first child (with the remaining children as
that child's siblings) and its right sibling is the next sibling. -/
def genLcrs : Nat → TSTree → List TSTree → Option Str
  | 0, _, _ => none
  | fuel + 1, t, sibs => do
    let left ←
      match t.children with
      | [] => some []
      | c :: cs => genLcrs fuel c cs
    let right ←
      match sibs with
      | [] => some []
      | s :: ss => genLcrs fuel s ss
    some ('(' :: left ++ '(' :: t.value ++ ')' :: right ++ [')'])

/-- `TS.gen_lcrs_representation`: on RecursionError, fall back to the
structure-based serialization. -/
def genLcrsRepresentation (fuel : Nat) (t : TSTree) : List Str :=
  match genLcrs fuel t [] with
  | some s => (splitBrk s).filter (· ≠ [])
  | none => genSbtRepresentation t

/-- `node.split('@')[0]`: the label text before the first mark delimiter. -/
def stripMark (n : Str) : Str := (splitOnChar '@' n).headD []

/-- `TS.clean_mark`: strip each label at the first `'@'` (keep
`node.split('@')[0]`). -/
def cleanMark (nodes : List Str) : List Str :=
  nodes.map stripMark

/-- `TS.stats`: dedup the six accumulators, compute the three link-coverage
ratios, then strip marks, re-dedup, and compute the two node-coverage
ratios.  Python float division is embedded as exact rational division. -/
def stats (term nonterm rpT rpN lpT lpN : List Str) (numEldest : Nat) :
    ℚ × ℚ × ℚ × ℚ × ℚ :=
  let term1 := term.dedup
  let nonterm1 := nonterm.dedup
  let rpT1 := rpT.dedup
  let rpN1 := rpN.dedup
  let lpT1 := lpT.dedup
  let lpN1 := lpN.dedup
  let linkDenom : ℚ := (term1.length : ℚ) + (nonterm1.length : ℚ) - 1
  let linkRP : ℚ := ((rpT1.length : ℚ) + (rpN1.length : ℚ) - 1) / linkDenom
  let linkLP : ℚ := ((lpT1.length : ℚ) + (lpN1.length : ℚ) - 1) / linkDenom
  let linkLCRS : ℚ := (numEldest : ℚ) / linkDenom
  let term2 := (cleanMark term1).dedup
  let nonterm2 := (cleanMark nonterm1).dedup
  let rpT2 := (cleanMark rpT1).dedup
  let rpN2 := (cleanMark rpN1).dedup
  let lpT2 := (cleanMark lpT1).dedup
  let lpN2 := (cleanMark lpN1).dedup
  let nodeDenom : ℚ := (term2.length : ℚ) + (nonterm2.length : ℚ)
  let nodeRP : ℚ := ((rpT2.length : ℚ) + (rpN2.length : ℚ)) / nodeDenom
  let nodeLP : ℚ := ((lpT2.length : ℚ) + (lpN2.length : ℚ)) / nodeDenom
  (linkRP, linkLP, linkLCRS, nodeRP, nodeLP)

/-- Number of distinct labels in an accumulator (Python `len(set(...))`). -/
def dedupCount (l : List Str) : Nat := l.dedup.length

/-- The link-coverage formula as the specification states it:
`(|sampled_terminal| + |sampled_nonterminal| - 1) /
(|full_terminal| + |full_nonterminal| - 1)`, marks retained. -/
def specLinkCoverage (sT sN fT fN : List Str) : ℚ :=
  ((dedupCount sT : ℚ) + (dedupCount sN : ℚ) - 1) /
    ((dedupCount fT : ℚ) + (dedupCount fN : ℚ) - 1)

/-- The LCRS link-coverage formula as the specification states it:
`eldest_count / (|full_terminal| + |full_nonterminal| - 1)`. -/
def specLcrsCoverage (eldestCount : Nat) (fT fN : List Str) : ℚ :=
  (eldestCount : ℚ) / ((dedupCount fT : ℚ) + (dedupCount fN : ℚ) - 1)

/-- The node-coverage formula as the specification states it: strip the mark
suffix from every label, deduplicate, and take
`(sampled_terminal + sampled_nonterminal) / (full_terminal + full_nonterminal)`
with no `-1` offset. -/
def specNodeCoverage (sT sN fT fN : List Str) : ℚ :=
  ((dedupCount (cleanMark sT) : ℚ) + (dedupCount (cleanMark sN) : ℚ)) /
    ((dedupCount (cleanMark fT) : ℚ) + (dedupCount (cleanMark fN) : ℚ))

/-- The leaf-path qualification rule as the specification states it: both
merge results non-empty, width difference at most 2, total length at most
8. -/
def specQualifies (u v : List Str) : Prop :=
  let r := mergePaths u v
  r.1 ≠ [] ∧ r.2.2 ≠ [] ∧ |(r.1.length : Int) - (r.2.2.length : Int)| ≤ 2 ∧
    (r.1.length : Int) + 1 + (r.2.2.length : Int) ≤ 8

/-- The candidate test of `TS.gen_root_paths`: an `identifier` terminal with
non-empty root path and non-empty anchor value. -/
def isIdentCand (r : TRec) : Bool :=
  decide (r.type = "identifier".data ∧ r.rootPath ≠ [] ∧ r.value ≠ [])

/-- Every node of the tree carries a mark of length at least 2 (true of every
built tree: marks start with `'@'` and at least one digit). -/
def MarksDeep : TSTree → Prop
  | t => 2 ≤ t.mark.length ∧ ∀ c ∈ t.children, MarksDeep c
termination_by t => tsize t
decreasing_by
  rw [tsize_eq t]
  have h1 : tsize c ≤ (t.children.map tsize).sum :=
    List.single_le_sum (fun x _ => Nat.zero_le x) _ (List.mem_map_of_mem tsize (by assumption))
  omega

/-- Every node of the tree has `eldest = false`. -/
def EldestFree : TSTree → Prop
  | t => t.eldest = false ∧ ∀ c ∈ t.children, EldestFree c
termination_by t => tsize t
decreasing_by
  rw [tsize_eq t]
  have h1 : tsize c ≤ (t.children.map tsize).sum :=
    List.single_le_sum (fun x _ => Nat.zero_le x) _ (List.mem_map_of_mem tsize (by assumption))
  omega

/-- A deterministic stand-in for `random.sample`: the first `k` entries. -/
def takeSampler {α : Type} (l : List α) (k : Nat) : List α := l.take k

/-- A second deterministic stand-in for `random.sample`: the first `k`
entries of the reversed list. -/
def revSampler {α : Type} (l : List α) (k : Nat) : List α := l.reverse.take k

/-- Concrete opaque tree for the C1 counterexample: a root and an inner node
that slice to the same one-character token `"v"` of the source line `"vv"`
but occupy different positions, above one `identifier` terminal. -/
def pExC1 : PNode :=
  .mk "module".data (0, 0) (0, 1)
    [.mk "x".data (0, 1) (0, 2) [.mk "identifier".data (0, 1) (0, 2) []]]

/-- Concrete opaque tree for C2/C7: a root whose two children are both
`identifier` terminals (terminals only at depth 1), over the source line
`"a b"`. -/
def pExC2 : PNode :=
  .mk "module".data (0, 0) (0, 3)
    [.mk "identifier".data (0, 0) (0, 1) [], .mk "identifier".data (0, 2) (0, 3) []]

/-- Concrete opaque tree for C3/C9: a root with a single `identifier`
terminal `"ab"`. -/
def pExC3 : PNode :=
  .mk "module".data (0, 0) (0, 2) [.mk "identifier".data (0, 0) (0, 2) []]

/-- Concrete opaque tree for C6: a root over the source line `"a_b c_d"`
with two snake_case `identifier` terminals, whose tokenized anchor values
`"a|b@0~0~0~3"` and `"c|d@0~4~0~7"` are multi-token. -/
def pExC6 : PNode :=
  .mk "module".data (0, 0) (0, 7)
    [.mk "identifier".data (0, 0) (0, 3) [], .mk "identifier".data (0, 4) (0, 7) []]

theorem genRootPathLoop_SPT (tMark : Str) :
    ∀ (climb : List TSTree) (path : List Str),
      genRootPathLoop .SPT tMark climb path none =
        (path ++ climb.map fun a => a.value ++ tMark, none) := by
  intro climb
  induction climb with
  | nil => intro path; simp [genRootPathLoop]
  | cons ptr rest ih =>
    intro path
    simp [genRootPathLoop, ih]

/-- In the default SPT style, a terminal's root path is the list of its
ancestors' values, each suffixed with the terminal's own mark. -/
theorem genRootPath_SPT (anc : List TSTree) (t : TSTree) :
    genRootPath .SPT anc t = (anc.map fun a => a.value ++ t.mark, t.value ++ t.mark) := by
  simp [genRootPath, genRootPathLoop_SPT]

/-- In every tree style, the anchor value returned by `gen_root_path` ends in
the terminal's mark. -/
theorem genRootPath_val (style : Style) (anc : List TSTree) (t : TSTree) :
    ∃ v : Str, (genRootPath style anc t).2 = v ++ t.mark := by
  cases h : (genRootPathLoop style t.mark anc.reverse [] none).2 with
  | none => exact ⟨t.value, by simp [genRootPath, h]⟩
  | some hp => exact ⟨joinChar '|' (bfsIdentValues [hp]), by simp [genRootPath, h]⟩

theorem markOf_length (sp ep : Nat × Nat) : 2 ≤ (markOf sp ep).length := by
  rw [markOf_unfold]
  cases h : natStr sp.1 with
  | nil => exact absurd h (natStr_ne_nil _)
  | cons a tl => simp [h]

/-- A leaf opaque node builds, for any positive fuel, to a terminal TSNode
with tokenized and `formalize`d value. -/
theorem buildAux_leaf (des form : Str → Str) (lines : List Str) (fuel : Nat) (c : PNode)
    (hf : 1 ≤ fuel) (hc : c.children = []) :
    buildAux des form lines fuel c =
      .mk (pyStrip (pyLower c.kind)) (form (tokenize (queryToken lines c)))
        (markOf c.sp c.ep) false [] := by
  cases fuel with
  | zero => omega
  | succ f => simp [buildAux, hc]

theorem buildAux_marksDeep (des form : Str → Str) (lines : List Str) :
    ∀ fuel p, psize p ≤ fuel → MarksDeep (buildAux des form lines fuel p) := by
  intro fuel
  induction fuel with
  | zero =>
    intro p hp
    have := psize_pos p
    omega
  | succ f ih =>
    intro p hp
    rw [buildAux]
    by_cases hc : p.children.isEmpty
    · rw [if_pos hc]
      unfold MarksDeep
      refine ⟨by simpa [TSTree.mark] using markOf_length p.sp p.ep, ?_⟩
      intro c hcmem
      simp [TSTree.children] at hcmem
    · rw [if_neg hc]
      unfold MarksDeep
      refine ⟨by simpa [TSTree.mark] using markOf_length p.sp p.ep, ?_⟩
      intro c hcmem
      simp only [TSTree.children, List.mem_map] at hcmem
      obtain ⟨c0, hc0, rfl⟩ := hcmem
      apply ih
      have hsum : psize c0 ≤ (p.children.map psize).sum :=
        List.single_le_sum (fun x _ => Nat.zero_le x) _ (List.mem_map_of_mem psize hc0)
      have := psize_eq p
      omega

theorem build_marksDeep (des form : Str → Str) (lines : List Str) (p : PNode) :
    MarksDeep (build des form lines p) :=
  buildAux_marksDeep des form lines (psize p) p le_rfl

theorem collectRecsAux_value_long (style : Style) :
    ∀ fuel (q : List (List TSTree × TSTree)), (∀ pr ∈ q, MarksDeep pr.2) →
      ∀ r ∈ collectRecsAux style fuel q, 1 < r.value.length := by
  intro fuel
  induction fuel with
  | zero => intro q _ r hr; simp [collectRecsAux] at hr
  | succ f ih =>
    intro q hq r hr
    cases q with
    | nil => simp [collectRecsAux] at hr
    | cons pr rest =>
      obtain ⟨anc, t⟩ := pr
      rw [collectRecsAux] at hr
      by_cases hc : t.children.isEmpty
      · rw [if_pos hc] at hr
        rcases List.mem_cons.mp hr with h | h
        · obtain ⟨v, hv⟩ := genRootPath_val style anc t
          have hmark : 2 ≤ t.mark.length := by
            have := hq (anc, t) (by simp)
            rw [MarksDeep] at this
            exact this.1
          subst h
          simp only [hv, List.length_append]
          omega
        · exact ih rest (fun x hx => hq x (by simp [hx])) r h
      · rw [if_neg hc] at hr
        refine ih _ ?_ r hr
        intro x hx
        rcases List.mem_append.mp hx with h | h
        · exact hq x (by simp [h])
        · obtain ⟨c0, hc0, rfl⟩ := List.mem_map.mp h
          have := hq (anc, t) (by simp)
          rw [MarksDeep] at this
          exact this.2 c0 hc0

/-- Every record extracted from a built tree has a mark-suffixed anchor value
of string length greater than 1. -/
theorem pipelineRecs_value_long (style : Style) (des form : Str → Str)
    (lines : List Str) (p : PNode) :
    ∀ r ∈ pipelineRecs style des form lines p, 1 < r.value.length := by
  intro r hr
  refine collectRecsAux_value_long style _ _ ?_ r hr
  intro pr hpr
  simp only [List.mem_singleton] at hpr
  subst hpr
  exact build_marksDeep des form lines p

theorem rootPathBuckets_b0_nil (recs : List TRec)
    (h : ∀ r ∈ recs, 1 < r.value.length) : (rootPathBuckets recs).2 = [] := by
  induction recs with
  | nil => rfl
  | cons r rest ih =>
    have hr := h r (by simp)
    have hrest := ih fun x hx => h x (by simp [hx])
    simp only [rootPathBuckets]
    split <;> try split
    all_goals first
      | exact hrest
      | exact absurd hr (by assumption)

theorem rootPathBuckets_b1_long (recs : List TRec) :
    ∀ rp ∈ (rootPathBuckets recs).1, 1 < rp.2.length := by
  induction recs with
  | nil => intro rp h; simp [rootPathBuckets] at h
  | cons r rest ih =>
    intro rp hrp
    simp only [rootPathBuckets] at hrp
    split at hrp
    · split at hrp
      · rcases List.mem_cons.mp hrp with h | h
        · subst h; assumption
        · exact ih rp h
      · exact ih rp hrp
    · exact ih rp hrp

theorem rootPathBuckets_mem : ∀ (recs : List TRec) (rp : RP),
    rp ∈ (rootPathBuckets recs).1 ∨ rp ∈ (rootPathBuckets recs).2 →
    ∃ r ∈ recs, rp = (r.rootPath, r.value) := by
  intro recs
  induction recs with
  | nil => intro rp h; simp [rootPathBuckets] at h
  | cons r rest ih =>
    intro rp h
    simp only [rootPathBuckets] at h
    have step : rp ∈ (rootPathBuckets rest).1 ∨ rp ∈ (rootPathBuckets rest).2 →
        ∃ r' ∈ r :: rest, rp = (r'.rootPath, r'.value) := by
      intro h2
      obtain ⟨r', hr', he⟩ := ih rp h2
      exact ⟨r', by simp [hr'], he⟩
    split at h
    · split at h
      · rcases h with h | h
        · rcases List.mem_cons.mp h with rfl | h2
          · exact ⟨r, by simp, rfl⟩
          · exact step (Or.inl h2)
        · exact step (Or.inr h)
      · rcases h with h | h
        · exact step (Or.inl h)
        · rcases List.mem_cons.mp h with rfl | h2
          · exact ⟨r, by simp, rfl⟩
          · exact step (Or.inr h2)
    · exact step h

theorem genRootPaths_mem (s : List RP → Nat → List RP) (recs : List TRec)
    (hs : ∀ (l : List RP) (n : Nat), s l n ⊆ l) :
    ∀ rp ∈ genRootPaths s recs, ∃ r ∈ recs, rp = (r.rootPath, r.value) := by
  intro rp hrp
  simp only [genRootPaths] at hrp
  split at hrp
  · exact rootPathBuckets_mem recs rp (Or.inl (hs _ _ hrp))
  · split at hrp
    · rcases List.mem_append.mp hrp with h | h
      · exact rootPathBuckets_mem recs rp (Or.inl h)
      · exact rootPathBuckets_mem recs rp (Or.inr (hs _ _ h))
    · exact rootPathBuckets_mem recs rp (Or.inl hrp)

theorem genRootPaths_eq_b1 (s : List RP → Nat → List RP) (recs : List TRec)
    (hb0 : (rootPathBuckets recs).2 = []) (hlen : (rootPathBuckets recs).1.length ≤ 20)
    (hs : s [] 0 = []) : genRootPaths s recs = (rootPathBuckets recs).1 := by
  simp only [genRootPaths]
  rw [hb0]
  have hm : ¬((20 : Int) - (rootPathBuckets recs).1.length < 0) := by
    omega
  rw [if_neg hm]
  by_cases hpos : (0 : Int) < 20 - (rootPathBuckets recs).1.length
  · rw [if_pos hpos]
    simp [hs]
  · rw [if_neg hpos]

theorem pairsOf_mem {α : Type} : ∀ (l : List α) (u v : α), (u, v) ∈ pairsOf l → u ∈ l ∧ v ∈ l := by
  intro l
  induction l with
  | nil => intro u v h; simp [pairsOf] at h
  | cons x xs ih =>
    intro u v h
    simp only [pairsOf, List.mem_append, List.mem_map] at h
    rcases h with ⟨y, hy, heq⟩ | h
    · obtain ⟨rfl, rfl⟩ := Prod.mk.injEq .. ▸ And.intro (congrArg Prod.fst heq) (congrArg Prod.snd heq)
      exact ⟨by simp, by simp [hy]⟩
    · obtain ⟨hu, hv⟩ := ih u v h
      exact ⟨by simp [hu], by simp [hv]⟩

theorem processPairs_tier2 (pstyle : PathStyle) :
    ∀ (pairs : List (RP × RP)) (lp2 : List Str),
      (∀ pr ∈ pairs, 1 < pr.1.2.length ∧ 1 < pr.2.2.length) →
      (processPairs pstyle pairs lp2 [] []).2.1 = [] ∧
        (processPairs pstyle pairs lp2 [] []).2.2 = [] := by
  intro pairs
  induction pairs with
  | nil => intro lp2 _; simp [processPairs]
  | cons pr rest ih =>
    intro lp2 h
    obtain ⟨u, v⟩ := pr
    have hu : 1 < u.2.length := by simpa using (h (u, v) (by simp)).1
    have hv : 1 < v.2.length := by simpa using (h (u, v) (by simp)).2
    have hrest : ∀ x ∈ rest, 1 < x.1.2.length ∧ 1 < x.2.2.length :=
      fun x hx => h x (by simp [hx])
    simp only [processPairs]
    have hskip :
        (if 20 ≤ lp2.length then decide (u.2.length ≤ 1 ∨ v.2.length ≤ 1)
          else if 20 ≤ lp2.length + ([] : List Str).length then
            decide (u.2.length ≤ 1 ∧ v.2.length ≤ 1)
          else false) = false := by
      split
      · simp only [decide_eq_false_iff_not]
        omega
      · split
        · simp only [decide_eq_false_iff_not]
          omega
        · rfl
    rw [hskip]
    simp only [Bool.false_eq_true, if_false]
    split
    · rw [if_pos (Or.inl hu), if_pos ⟨hu, hv⟩]
      exact ih _ hrest
    · exact ih _ hrest

theorem collectRecsAux_terminals (style : Style) :
    ∀ (q : List (List TSTree × TSTree)) (fuel : Nat),
      (∀ pr ∈ q, pr.2.children = []) → q.length ≤ fuel →
      collectRecsAux style fuel q =
        q.map fun pr =>
          ⟨pr.2.type, (genRootPath style pr.1 pr.2).1, (genRootPath style pr.1 pr.2).2⟩ := by
  intro q
  induction q with
  | nil =>
    intro fuel _ _
    cases fuel <;> simp [collectRecsAux]
  | cons pr rest ih =>
    intro fuel hterm hfuel
    obtain ⟨anc, t⟩ := pr
    cases fuel with
    | zero => simp at hfuel
    | succ f =>
      have ht : t.children = [] := hterm (anc, t) (by simp)
      rw [collectRecsAux, if_pos (by simp [ht])]
      rw [ih f (fun x hx => hterm x (by simp [hx])) (by simpa using hfuel)]
      simp

theorem tsize_leaf (t : TSTree) (h : t.children = []) : tsize t = 1 := by
  rw [tsize_eq, h]
  simp

theorem build_depth1 (des form : Str → Str) (lines : List Str) (p : PNode)
    (hne : p.children ≠ []) (hleaf : ∀ c ∈ p.children, c.children = []) :
    build des form lines p =
      .mk (pyStrip (pyLower p.kind)) (des (queryToken lines p)) (markOf p.sp p.ep) false
        (p.children.map fun c =>
          .mk (pyStrip (pyLower c.kind)) (form (tokenize (queryToken lines c)))
            (markOf c.sp c.ep) false []) := by
  unfold build
  obtain ⟨k, hk⟩ : ∃ k, psize p = k + 1 := ⟨psize p - 1, by have := psize_pos p; omega⟩
  rw [hk, buildAux]
  have hcne : ¬p.children.isEmpty := by simpa [List.isEmpty_iff] using hne
  rw [if_neg hcne]
  congr 1
  apply List.map_congr_left
  intro c hc
  apply buildAux_leaf
  · have hsum : psize c ≤ (p.children.map psize).sum :=
      List.single_le_sum (fun x _ => Nat.zero_le x) _ (List.mem_map_of_mem psize hc)
    have h1 := psize_pos c
    have h2 := psize_eq p
    omega
  · exact hleaf c hc

/-- For a tree with terminals only at depth 1, every extracted record's root
path is the singleton ancestor list `[root]` labelled for that terminal. -/
theorem pipelineRecs_depth1 (des form : Str → Str) (lines : List Str) (p : PNode)
    (hne : p.children ≠ []) (hleaf : ∀ c ∈ p.children, c.children = []) :
    ∀ r ∈ pipelineRecs .SPT des form lines p, r.rootPath.length = 1 := by
  intro r hr
  rw [pipelineRecs, build_depth1 des form lines p hne hleaf] at hr
  set root : TSTree :=
    .mk (pyStrip (pyLower p.kind)) (des (queryToken lines p)) (markOf p.sp p.ep) false
      (p.children.map fun c =>
        .mk (pyStrip (pyLower c.kind)) (form (tokenize (queryToken lines c)))
          (markOf c.sp c.ep) false []) with hroot
  have hch : root.children =
      p.children.map fun c =>
        .mk (pyStrip (pyLower c.kind)) (form (tokenize (queryToken lines c)))
          (markOf c.sp c.ep) false [] := by
    rw [hroot]
    rfl
  have htsize : tsize root = p.children.length + 1 := by
    have hsum : ∀ l : List PNode, ((l.map fun c =>
        TSTree.mk (pyStrip (pyLower c.kind)) (form (tokenize (queryToken lines c)))
          (markOf c.sp c.ep) false []).map tsize).sum = l.length := by
      intro l
      induction l with
      | nil => rfl
      | cons a t ihl =>
        have h1 : tsize (TSTree.mk (pyStrip (pyLower a.kind))
            (form (tokenize (queryToken lines a))) (markOf a.sp a.ep) false []) = 1 :=
          tsize_leaf _ rfl
        simp only [List.map_cons, List.sum_cons, h1, List.length_cons]
        omega
    rw [tsize_eq, hch, hsum]
    omega
  rw [htsize, collectRecsAux] at hr
  have hrootne : ¬root.children.isEmpty := by
    rw [hch]
    simpa [List.isEmpty_iff] using hne
  rw [if_neg hrootne] at hr
  rw [List.nil_append] at hr
  rw [collectRecsAux_terminals .SPT _ _ ?hterm ?hfuel] at hr
  case hterm =>
    intro pr hpr
    rw [hch] at hpr
    simp only [List.map_map, List.mem_map] at hpr
    obtain ⟨c, _, rfl⟩ := hpr
    rfl
  case hfuel =>
    rw [hch]
    simp
  simp only [List.mem_map] at hr
  obtain ⟨pr, hpr, rfl⟩ := hr
  rw [hch] at hpr
  simp only [List.map_map, List.mem_map] at hpr
  obtain ⟨c, _, rfl⟩ := hpr
  simp [genRootPath_SPT]

theorem mergePaths_single (a b : Str) (h : a ≠ b) : mergePaths [a] [b] = ([a], a, [b]) := by
  have hl : lcpLen [a] [b] = 0 := by
    simp [lcpLen, h]
  simp only [mergePaths, hl]
  norm_num [pyGet]

theorem leafQualifies_single (a b : Str) (h : a ≠ b) : leafQualifies [a] [b] := by
  unfold leafQualifies
  rw [mergePaths_single a b h]
  norm_num

theorem buildAux_eldestFree (des form : Str → Str) (lines : List Str) :
    ∀ fuel p, EldestFree (buildAux des form lines fuel p) := by
  intro fuel
  induction fuel with
  | zero =>
    intro p
    rw [EldestFree]
    exact ⟨rfl, by intro c hc; simp [buildAux, TSTree.children] at hc⟩
  | succ f ih =>
    intro p
    rw [buildAux]
    by_cases hc : p.children.isEmpty
    · rw [if_pos hc, EldestFree]
      exact ⟨rfl, by intro c hcm; simp [TSTree.children] at hcm⟩
    · rw [if_neg hc, EldestFree]
      refine ⟨rfl, ?_⟩
      intro c hcm
      simp only [TSTree.children, List.mem_map] at hcm
      obtain ⟨c0, _, rfl⟩ := hcm
      exact ih c0

theorem allNodesAux_eldest :
    ∀ fuel t, EldestFree t → ∀ n ∈ allNodesAux fuel t, n.eldest = false := by
  intro fuel
  induction fuel with
  | zero => intro t _ n hn; simp [allNodesAux] at hn
  | succ f ih =>
    intro t ht n hn
    rw [EldestFree] at ht
    rw [allNodesAux] at hn
    rcases List.mem_cons.mp hn with rfl | hn
    · exact ht.1
    · rw [List.mem_flatten] at hn
      obtain ⟨l, hl, hnl⟩ := hn
      obtain ⟨c, hcm, rfl⟩ := List.mem_map.mp hl
      exact ih c (ht.2 c hcm) n hnl

theorem genLeafPaths_det (sL : List Str → Nat → List Str) (sR : List RP → Nat → List RP)
    (pstyle : PathStyle) (recs : List TRec)
    (hb0 : (rootPathBuckets recs).2 = [])
    (h1 : (rootPathBuckets recs).1.length ≤ 20)
    (h2 : (processPairs pstyle (pairsOf (rootPathBuckets recs).1) [] [] []).1.length ≤ 20)
    (hR : sR [] 0 = []) (hL : sL [] 0 = []) :
    genLeafPaths sL sR pstyle recs =
      (processPairs pstyle (pairsOf (rootPathBuckets recs).1) [] [] []).1 := by
  simp only [genLeafPaths]
  rw [genRootPaths_eq_b1 sR recs hb0 h1 hR]
  have hpairs : ∀ pr ∈ pairsOf (rootPathBuckets recs).1,
      1 < pr.1.2.length ∧ 1 < pr.2.2.length := by
    intro pr hpr
    obtain ⟨hu, hv⟩ := pairsOf_mem _ pr.1 pr.2 (by simpa using hpr)
    exact ⟨rootPathBuckets_b1_long recs _ hu, rootPathBuckets_b1_long recs _ hv⟩
  obtain ⟨e1, e2⟩ := processPairs_tier2 pstyle (pairsOf (rootPathBuckets recs).1) [] hpairs
  rw [e1, e2]
  have hm : ¬((20 : Int) -
      (processPairs pstyle (pairsOf (rootPathBuckets recs).1) [] [] []).1.length < 0) := by
    omega
  rw [if_neg hm]
  by_cases hpos : (0 : Int) <
      20 - (processPairs pstyle (pairsOf (rootPathBuckets recs).1) [] [] []).1.length
  · rw [if_pos hpos]
    simp only [List.length_nil, Nat.min_zero, hL, List.append_nil]
    rw [if_pos (by omega)]
  · rw [if_neg hpos]

theorem genRootPathLoop_mark (style : Style) (tMark : Str) :
    ∀ (climb : List TSTree) (path : List Str) (hpt : Option TSTree),
      (∀ l ∈ path, ∃ v, l = v ++ tMark) →
      ∀ l ∈ (genRootPathLoop style tMark climb path hpt).1, ∃ v, l = v ++ tMark := by
  intro climb
  induction climb with
  | nil =>
    intro path hpt hinv l hl
    simp only [genRootPathLoop] at hl
    exact hinv l hl
  | cons ptr rest ih =>
    intro path hpt hinv l hl
    have hext : ∀ x : Str, ∀ l ∈ path ++ [x ++ tMark], ∃ v, l = v ++ tMark := by
      intro x l hlm
      rcases List.mem_append.mp hlm with h | h
      · exact hinv l h
      · exact ⟨x, by simpa using h⟩
    cases style with
    | AST => exact ih _ hpt (hext ptr.type) l hl
    | SPT => exact ih _ hpt (hext ptr.value) l hl
    | HST =>
      rw [genRootPathLoop] at hl
      split at hl
      · exact ih _ _ (by simp) l hl
      · exact ih _ hpt (hext ptr.type) l hl
    | HPT =>
      rw [genRootPathLoop] at hl
      split at hl
      · exact ih _ _ (by simp) l hl
      · exact ih _ hpt (hext ptr.value) l hl

/-- In every tree style, every label of a generated root path ends with the
anchor terminal's own mark. -/
theorem genRootPath_mark (style : Style) (anc : List TSTree) (t : TSTree) :
    ∀ l ∈ (genRootPath style anc t).1, ∃ v, l = v ++ t.mark := by
  intro l hl
  simp only [genRootPath, List.mem_reverse] at hl
  exact genRootPathLoop_mark style t.mark anc.reverse [] none (by simp) l hl

/-- C1, counterexample: the claim says the mark appended to each ancestor
label encodes that ancestor's own coordinates, so positionally distinct but
identical-looking ancestors get distinct labels.  On the concrete tree
`pExC1` (source line `"vv"`), the root (coordinates (0,0)-(0,1)) and the
inner node (coordinates (0,1)-(0,2)) both have value `"v"` and distinct
marks, yet the generated root path labels them both `"v@0~1~0~2"` — the mark
is the terminal's, so the two positionally distinct ancestors receive the
same label. -/
theorem claim_C1_counterexample :
    (pipelineRecs .SPT id id ["vv".data] pExC1).map TRec.rootPath =
      [["v@0~1~0~2".data, "v@0~1~0~2".data]] ∧
    (build id id ["vv".data] pExC1).value =
      ((build id id ["vv".data] pExC1).children.headD (.mk [] [] [] false [])).value ∧
    (build id id ["vv".data] pExC1).mark ≠
      ((build id id ["vv".data] pExC1).children.headD (.mk [] [] [] false [])).mark := by
  decide

/-- C1, amended: the mark suffix appended to each ancestor label is the
anchor terminal's mark, and it uniquely encodes the terminal's
(start-row, start-col, end-row, end-col); hence identical-looking ancestors
appearing in the root paths of positionally distinct terminals receive
distinct labels (while positionally distinct ancestors inside one root path
do not). -/
theorem claim_C1_amended :
    (∀ sp ep sp' ep' : Nat × Nat, markOf sp ep = markOf sp' ep' → sp = sp' ∧ ep = ep') ∧
    (∀ (style : Style) (anc : List TSTree) (t : TSTree),
      ∀ l ∈ (genRootPath style anc t).1, ∃ v, l = v ++ t.mark) ∧
    (∀ (anc : List TSTree) (t : TSTree),
      (genRootPath .SPT anc t).1 = anc.map fun a => a.value ++ t.mark) ∧
    (∀ (v : Str) (sp ep sp' ep' : Nat × Nat), ¬(sp = sp' ∧ ep = ep') →
      v ++ markOf sp ep ≠ v ++ markOf sp' ep') := by
  refine ⟨fun sp ep sp' ep' h => markOf_inj h, genRootPath_mark,
    fun anc t => by rw [genRootPath_SPT], ?_⟩
  intro v sp ep sp' ep' hne heq
  exact hne (markOf_inj (List.append_cancel_left heq))

theorem claim_C1_amended_witness :
    ¬(((0 : Nat), (0 : Nat)) = ((0 : Nat), (1 : Nat)) ∧
        ((0 : Nat), (1 : Nat)) = ((0 : Nat), (2 : Nat))) ∧
      "v".data ++ markOf (0, 0) (0, 1) ≠ "v".data ++ markOf (0, 1) (0, 2) :=
  ⟨by decide, claim_C1_amended.2.2.2 "v".data (0, 0) (0, 1) (0, 1) (0, 2) (by decide)⟩

/-- C2, counterexample: on the depth-1 tree `pExC2` (two identifier
terminals under the root), each root path does have length 1, but because
each path's single label carries its own terminal's mark, the two paths
differ, so merging yields a non-empty singleton prefix and suffix, the pair
qualifies, and leaf-path enumeration yields one leaf path - not zero. -/
theorem claim_C2_counterexample :
    (pipelineRecs .SPT id id ["a b".data] pExC2).map TRec.rootPath =
      [["a b@0~0~0~1".data], ["a b@0~2~0~3".data]] ∧
    (mergePaths ["a b@0~0~0~1".data] ["a b@0~2~0~3".data]).1 ≠ [] ∧
    (mergePaths ["a b@0~0~0~1".data] ["a b@0~2~0~3".data]).2.2 ≠ [] ∧
    (genLeafPaths takeSampler takeSampler .L2L
        (pipelineRecs .SPT id id ["a b".data] pExC2)).length = 1 := by
  decide

/-- C2, amended: for any opaque tree whose root has children that are all
terminals, every terminal's ancestor sequence has length exactly 1; for two
such terminals with distinct (mark-bearing) root paths, merging yields a
singleton prefix and a singleton suffix — both non-empty — and the pair
qualifies, so each such pair yields a qualifying leaf path rather than
none. -/
theorem claim_C2_amended (des form : Str → Str) (lines : List Str) (p : PNode)
    (hne : p.children ≠ []) (hleaf : ∀ c ∈ p.children, c.children = []) :
    (∀ r ∈ pipelineRecs .SPT des form lines p, r.rootPath.length = 1) ∧
    (∀ r1 ∈ pipelineRecs .SPT des form lines p, ∀ r2 ∈ pipelineRecs .SPT des form lines p,
      r1.rootPath ≠ r2.rootPath →
        (mergePaths r1.rootPath r2.rootPath).1.length = 1 ∧
        (mergePaths r1.rootPath r2.rootPath).2.2.length = 1 ∧
        leafQualifies r1.rootPath r2.rootPath) := by
  have h1 := pipelineRecs_depth1 des form lines p hne hleaf
  refine ⟨h1, ?_⟩
  intro r1 hr1 r2 hr2 hne12
  obtain ⟨a, ha⟩ := List.length_eq_one.mp (h1 r1 hr1)
  obtain ⟨b, hb⟩ := List.length_eq_one.mp (h1 r2 hr2)
  have hab : a ≠ b := fun h => hne12 (by rw [ha, hb, h])
  rw [ha, hb]
  have hm := mergePaths_single a b hab
  exact ⟨by simp [hm], by simp [hm], leafQualifies_single a b hab⟩

theorem claim_C2_amended_witness :
    (pExC2.children ≠ [] ∧ ∀ c ∈ pExC2.children, c.children = []) ∧
    ((∀ r ∈ pipelineRecs .SPT id id ["a b".data] pExC2, r.rootPath.length = 1) ∧
      (∀ r1 ∈ pipelineRecs .SPT id id ["a b".data] pExC2,
        ∀ r2 ∈ pipelineRecs .SPT id id ["a b".data] pExC2,
        r1.rootPath ≠ r2.rootPath →
          (mergePaths r1.rootPath r2.rootPath).1.length = 1 ∧
          (mergePaths r1.rootPath r2.rootPath).2.2.length = 1 ∧
          leafQualifies r1.rootPath r2.rootPath)) :=
  ⟨⟨by simp [pExC2, PNode.children],
      by
        intro c hc
        simp only [pExC2, PNode.children, List.mem_cons, List.not_mem_nil, or_false] at hc
        rcases hc with rfl | rfl <;> rfl⟩,
    claim_C2_amended id id ["a b".data] pExC2 (by simp [pExC2, PNode.children])
      (by
        intro c hc
        simp only [pExC2, PNode.children, List.mem_cons, List.not_mem_nil, or_false] at hc
        rcases hc with rfl | rfl <;> rfl)⟩

/-- C3, counterexample: the claim says the preferred bucket holds exactly
the candidates whose anchor value splits on `'|'` into more than one token.
On `pExC3` the single identifier's anchor value `"ab@0~0~0~2"` splits into
exactly one token, yet it is placed in the preferred bucket (`root_paths_1`)
and the other bucket is empty: the code tests `len(value) > 1` on the
mark-suffixed string, not the token count. -/
theorem claim_C3_counterexample :
    rootPathBuckets (pipelineRecs .SPT id id ["ab".data] pExC3) =
      ([(["ab@0~0~0~2".data], "ab@0~0~0~2".data)], []) ∧
    (splitPipe "ab@0~0~0~2".data).length = 1 := by
  decide

/-- C3, amended: the partition criterion is the string length of the
mark-suffixed anchor value (`len(value) > 1`), not its token count; the
preferred bucket is subsampled down to 20 when larger and otherwise topped
up from the other bucket bounded by its availability; and on records
generated from any built tree the other bucket is always empty, because
every anchor value carries a mark of length at least 2. -/
theorem claim_C3_amended :
    (∀ recs : List TRec,
      rootPathBuckets recs =
        ((recs.filter fun r => isIdentCand r && decide (1 < r.value.length)).map
            fun r => (r.rootPath, r.value),
          (recs.filter fun r => isIdentCand r && decide (r.value.length ≤ 1)).map
            fun r => (r.rootPath, r.value))) ∧
    (∀ (s : List RP → Nat → List RP) (recs : List TRec), (∀ l, s l 0 = []) →
      genRootPaths s recs =
        if 20 < (rootPathBuckets recs).1.length then s (rootPathBuckets recs).1 20
        else (rootPathBuckets recs).1 ++
          s (rootPathBuckets recs).2
            (min (20 - (rootPathBuckets recs).1.length) (rootPathBuckets recs).2.length)) ∧
    (∀ (style : Style) (des form : Str → Str) (lines : List Str) (p : PNode),
      (rootPathBuckets (pipelineRecs style des form lines p)).2 = []) := by
  refine ⟨?_, ?_, ?_⟩
  · intro recs
    induction recs with
    | nil => rfl
    | cons r rest ih =>
      by_cases hcand : r.type = "identifier".data ∧ r.rootPath ≠ [] ∧ r.value ≠ []
      · by_cases hlen : 1 < r.value.length
        · have hnotle : ¬r.value.length ≤ 1 := by omega
          simp [rootPathBuckets, List.filter_cons, isIdentCand, hcand, hlen, hnotle, ih]
        · have hle : r.value.length ≤ 1 := by omega
          simp [rootPathBuckets, List.filter_cons, isIdentCand, hcand, hlen, hle, ih]
      · simp [rootPathBuckets, List.filter_cons, isIdentCand, hcand, ih]
  · intro s recs hs
    simp only [genRootPaths]
    by_cases hgt : 20 < (rootPathBuckets recs).1.length
    · rw [if_pos (by omega :
        (20 : Int) - (rootPathBuckets recs).1.length < 0), if_pos hgt]
    · have hnneg : ¬((20 : Int) - (rootPathBuckets recs).1.length < 0) := by
        omega
      rw [if_neg hnneg, if_neg hgt]
      by_cases hpos : (0 : Int) < 20 - (rootPathBuckets recs).1.length
      · rw [if_pos hpos]
        congr 1
        congr 1
        omega
      · rw [if_neg hpos]
        have hlen : (rootPathBuckets recs).1.length = 20 := by
          omega
        rw [hlen]
        norm_num [hs]
  · intro style des form lines p
    exact rootPathBuckets_b0_nil _ (pipelineRecs_value_long style des form lines p)

theorem claim_C3_amended_witness :
    (∀ l : List RP, takeSampler l 0 = []) ∧
    genRootPaths takeSampler (pipelineRecs .SPT id id ["ab".data] pExC3) =
      [(["ab@0~0~0~2".data], "ab@0~0~0~2".data)] := by
  refine ⟨fun l => rfl, ?_⟩
  rw [claim_C3_amended.2.1 takeSampler _ fun l => rfl]
  decide

/-- C4: the qualification test applied inside `gen_leaf_paths` holds exactly
when both the prefix and the suffix obtained at the merge are non-empty, the
absolute difference of their lengths is at most 2, and
`len(prefix) + 1 + len(suffix)` is at most 8. -/
theorem claim_C4 (u v : List Str) : leafQualifies u v ↔ specQualifies u v := by
  have key : ∀ r : List Str × Str × List Str,
      (1 ≤ r.1.length ∧ 1 ≤ r.2.2.length ∧
        ((r.1.length : Int) - r.2.2.length).natAbs ≤ 2 ∧
        r.1.length + 1 + r.2.2.length ≤ 8) ↔
      (r.1 ≠ [] ∧ r.2.2 ≠ [] ∧ |(r.1.length : Int) - (r.2.2.length : Int)| ≤ 2 ∧
        (r.1.length : Int) + 1 + (r.2.2.length : Int) ≤ 8) := by
    intro r
    rw [Int.abs_eq_natAbs]
    constructor
    · rintro ⟨h1, h2, h3, h4⟩
      exact ⟨List.length_pos.mp h1, List.length_pos.mp h2, by exact_mod_cast h3,
        by exact_mod_cast h4⟩
    · rintro ⟨h1, h2, h3, h4⟩
      exact ⟨List.length_pos.mpr h1, List.length_pos.mpr h2, by exact_mod_cast h3,
        by exact_mod_cast h4⟩
  exact key (mergePaths u v)

theorem list_toFinset_map (f : Str → Str) (l : List Str) :
    (l.map f).toFinset = l.toFinset.image f := by
  ext x
  simp [List.mem_toFinset, List.mem_map, Finset.mem_image]

theorem list_toFinset_dedup (l : List Str) : l.dedup.toFinset = l.toFinset := by
  ext x
  simp [List.mem_toFinset, List.mem_dedup]

theorem clean_len_card (l : List Str) :
    ((cleanMark l.dedup).dedup).length = (cleanMark l).toFinset.card := by
  rw [← List.card_toFinset]
  unfold cleanMark
  rw [list_toFinset_map, list_toFinset_map, list_toFinset_dedup]

/-- C5: the five ratios returned by `stats`, in terms of the deduplicated
label counts, exactly as the specification gives them. -/
theorem claim_C5 (term nonterm rpT rpN lpT lpN : List Str) (k : Nat) :
    stats term nonterm rpT rpN lpT lpN k =
      (specLinkCoverage rpT rpN term nonterm, specLinkCoverage lpT lpN term nonterm,
        specLcrsCoverage k term nonterm, specNodeCoverage rpT rpN term nonterm,
        specNodeCoverage lpT lpN term nonterm) := by
  simp only [stats, specLinkCoverage, specLcrsCoverage, specNodeCoverage, dedupCount,
    clean_len_card, List.card_toFinset]

theorem node_ratio_props (sT sN fT fN : List Str)
    (hT : sT ⊆ fT) (hN : sN ⊆ fN) (hf : fT ≠ []) :
    0 ≤ (((cleanMark sT).toFinset.card : ℚ) + ((cleanMark sN).toFinset.card : ℚ)) /
        (((cleanMark fT).toFinset.card : ℚ) + ((cleanMark fN).toFinset.card : ℚ)) ∧
    (((cleanMark sT).toFinset.card : ℚ) + ((cleanMark sN).toFinset.card : ℚ)) /
        (((cleanMark fT).toFinset.card : ℚ) + ((cleanMark fN).toFinset.card : ℚ)) ≤ 1 ∧
    ((((cleanMark sT).toFinset.card : ℚ) + ((cleanMark sN).toFinset.card : ℚ)) /
        (((cleanMark fT).toFinset.card : ℚ) + ((cleanMark fN).toFinset.card : ℚ)) = 1 ↔
      (cleanMark sT).toFinset = (cleanMark fT).toFinset ∧
        (cleanMark sN).toFinset = (cleanMark fN).toFinset) := by
  have hsub1 : (cleanMark sT).toFinset ⊆ (cleanMark fT).toFinset := by
    intro x hx
    rw [List.mem_toFinset] at *
    obtain ⟨y, hy, rfl⟩ := List.mem_map.mp hx
    exact List.mem_map_of_mem _ (hT hy)
  have hsub2 : (cleanMark sN).toFinset ⊆ (cleanMark fN).toFinset := by
    intro x hx
    rw [List.mem_toFinset] at *
    obtain ⟨y, hy, rfl⟩ := List.mem_map.mp hx
    exact List.mem_map_of_mem _ (hN hy)
  have ha : (cleanMark sT).toFinset.card ≤ (cleanMark fT).toFinset.card :=
    Finset.card_le_card hsub1
  have hb : (cleanMark sN).toFinset.card ≤ (cleanMark fN).toFinset.card :=
    Finset.card_le_card hsub2
  have hc1 : 1 ≤ (cleanMark fT).toFinset.card := by
    cases fT with
    | nil => exact absurd rfl hf
    | cons x l =>
      refine Finset.card_pos.mpr ⟨stripMark x, ?_⟩
      rw [List.mem_toFinset]
      exact List.mem_map_of_mem _ (by simp)
  have hdpos : (0 : ℚ) <
      ((cleanMark fT).toFinset.card : ℚ) + ((cleanMark fN).toFinset.card : ℚ) := by
    have : (1 : ℚ) ≤ ((cleanMark fT).toFinset.card : ℚ) := by exact_mod_cast hc1
    have h0 : (0 : ℚ) ≤ ((cleanMark fN).toFinset.card : ℚ) := by positivity
    linarith
  refine ⟨by positivity, ?_, ?_⟩
  · rw [div_le_one hdpos]
    have : (cleanMark sT).toFinset.card + (cleanMark sN).toFinset.card ≤
        (cleanMark fT).toFinset.card + (cleanMark fN).toFinset.card := by omega
    exact_mod_cast this
  · rw [div_eq_one_iff_eq (ne_of_gt hdpos)]
    constructor
    · intro h
      have hnat : (cleanMark sT).toFinset.card + (cleanMark sN).toFinset.card =
          (cleanMark fT).toFinset.card + (cleanMark fN).toFinset.card := by
        exact_mod_cast h
      have e1 : (cleanMark fT).toFinset.card ≤ (cleanMark sT).toFinset.card := by omega
      have e2 : (cleanMark fN).toFinset.card ≤ (cleanMark sN).toFinset.card := by omega
      exact ⟨Finset.eq_of_subset_of_card_le hsub1 e1, Finset.eq_of_subset_of_card_le hsub2 e2⟩
    · rintro ⟨h1, h2⟩
      rw [h1, h2]

/-- C6, counterexample: the claim's parenthetical asserts the generated
sampled accumulators are subsets of the full ones on any tree with at least
one terminal.  On `pExC6` (source `"a_b c_d"`, two snake_case identifiers)
the selected leaf path is re-split on `'|'`, so its source piece `"a"` —
split off the multi-token endpoint value `"a|b@0~0~0~3"` — enters
`leafpath_terminal_nodes` although it appears nowhere in
`terminal_nodes`. -/
theorem claim_C6_counterexample :
    terminalNodesOf (pipelineRecs .SPT id id ["a_b c_d".data] pExC6) ≠ [] ∧
    "a".data ∈ leafpathTerminalNodesOf takeSampler takeSampler .L2L
      (pipelineRecs .SPT id id ["a_b c_d".data] pExC6) ∧
    "a".data ∉ terminalNodesOf (pipelineRecs .SPT id id ["a_b c_d".data] pExC6) := by
  decide

/-- C6, amended: whenever the sampled accumulators are subsets of the full
ones and the terminal accumulator is non-empty, both node-coverage ratios
lie in `[0, 1]` and equal 1 exactly when the deduplicated mark-stripped
sampled label sets equal the full ones; the subset condition does hold for
the root-path sampled sets (the sampler draws from the candidate records),
though not in general for the leaf-path sets, whose assembly re-splits
multi-token endpoint values. -/
theorem claim_C6_amended :
    (∀ (term nonterm rpT rpN lpT lpN : List Str) (k : Nat),
      rpT ⊆ term → rpN ⊆ nonterm → lpT ⊆ term → lpN ⊆ nonterm → term ≠ [] →
      (0 ≤ (stats term nonterm rpT rpN lpT lpN k).2.2.2.1 ∧
        (stats term nonterm rpT rpN lpT lpN k).2.2.2.1 ≤ 1 ∧
        ((stats term nonterm rpT rpN lpT lpN k).2.2.2.1 = 1 ↔
          (cleanMark rpT).toFinset = (cleanMark term).toFinset ∧
            (cleanMark rpN).toFinset = (cleanMark nonterm).toFinset)) ∧
      (0 ≤ (stats term nonterm rpT rpN lpT lpN k).2.2.2.2 ∧
        (stats term nonterm rpT rpN lpT lpN k).2.2.2.2 ≤ 1 ∧
        ((stats term nonterm rpT rpN lpT lpN k).2.2.2.2 = 1 ↔
          (cleanMark lpT).toFinset = (cleanMark term).toFinset ∧
            (cleanMark lpN).toFinset = (cleanMark nonterm).toFinset))) ∧
    (∀ (s : List RP → Nat → List RP) (recs : List TRec),
      (∀ (l : List RP) (n : Nat), s l n ⊆ l) →
      rootpathTerminalNodesOf s recs ⊆ terminalNodesOf recs ∧
      rootpathNonterminalNodesOf s recs ⊆ nonterminalNodesOf recs) := by
  constructor
  · intro term nonterm rpT rpN lpT lpN k hT hN hLT hLN hterm
    have hrw1 : (stats term nonterm rpT rpN lpT lpN k).2.2.2.1 =
        (((cleanMark rpT).toFinset.card : ℚ) + ((cleanMark rpN).toFinset.card : ℚ)) /
          (((cleanMark term).toFinset.card : ℚ) + ((cleanMark nonterm).toFinset.card : ℚ)) := by
      simp only [stats, clean_len_card]
    have hrw2 : (stats term nonterm rpT rpN lpT lpN k).2.2.2.2 =
        (((cleanMark lpT).toFinset.card : ℚ) + ((cleanMark lpN).toFinset.card : ℚ)) /
          (((cleanMark term).toFinset.card : ℚ) + ((cleanMark nonterm).toFinset.card : ℚ)) := by
      simp only [stats, clean_len_card]
    rw [hrw1, hrw2]
    exact ⟨node_ratio_props rpT rpN term nonterm hT hN hterm,
      node_ratio_props lpT lpN term nonterm hLT hLN hterm⟩
  · intro s recs hs
    constructor
    · intro x hx
      simp only [rootpathTerminalNodesOf, List.mem_map] at hx
      obtain ⟨rp, hrp, rfl⟩ := hx
      obtain ⟨r, hr, rfl⟩ := genRootPaths_mem s recs hs rp hrp
      simpa [terminalNodesOf] using List.mem_map_of_mem TRec.value hr
    · intro x hx
      simp only [rootpathNonterminalNodesOf, List.mem_flatten, List.mem_map] at hx
      obtain ⟨l, ⟨rp, hrp, rfl⟩, hxl⟩ := hx
      obtain ⟨r, hr, rfl⟩ := genRootPaths_mem s recs hs rp hrp
      simp only [nonterminalNodesOf, List.mem_flatten]
      exact ⟨r.rootPath, List.mem_map_of_mem TRec.rootPath hr, hxl⟩

theorem claim_C6_amended_witness :
    (["a@1".data] ⊆ ["a@1".data, "b@2".data] ∧ ["m@1".data] ⊆ ["m@1".data] ∧
      ([] : List Str) ⊆ ["a@1".data, "b@2".data] ∧ ([] : List Str) ⊆ ["m@1".data] ∧
      ["a@1".data, "b@2".data] ≠ []) ∧
    ((0 ≤ (stats ["a@1".data, "b@2".data] ["m@1".data] ["a@1".data] ["m@1".data] [] [] 1).2.2.2.1 ∧
      (stats ["a@1".data, "b@2".data] ["m@1".data] ["a@1".data] ["m@1".data] [] [] 1).2.2.2.1 ≤ 1 ∧
      ((stats ["a@1".data, "b@2".data] ["m@1".data] ["a@1".data] ["m@1".data] [] [] 1).2.2.2.1 = 1 ↔
        (cleanMark ["a@1".data]).toFinset = (cleanMark ["a@1".data, "b@2".data]).toFinset ∧
          (cleanMark ["m@1".data]).toFinset = (cleanMark ["m@1".data]).toFinset)) ∧
    (0 ≤ (stats ["a@1".data, "b@2".data] ["m@1".data] ["a@1".data] ["m@1".data] [] [] 1).2.2.2.2 ∧
      (stats ["a@1".data, "b@2".data] ["m@1".data] ["a@1".data] ["m@1".data] [] [] 1).2.2.2.2 ≤ 1 ∧
      ((stats ["a@1".data, "b@2".data] ["m@1".data] ["a@1".data] ["m@1".data] [] [] 1).2.2.2.2 = 1 ↔
        (cleanMark ([] : List Str)).toFinset = (cleanMark ["a@1".data, "b@2".data]).toFinset ∧
          (cleanMark ([] : List Str)).toFinset = (cleanMark ["m@1".data]).toFinset))) ∧
    ((∀ (l : List RP) (n : Nat), takeSampler l n ⊆ l) ∧
      (rootpathTerminalNodesOf takeSampler (pipelineRecs .SPT id id ["a_b c_d".data] pExC6) ⊆
        terminalNodesOf (pipelineRecs .SPT id id ["a_b c_d".data] pExC6) ∧
      rootpathNonterminalNodesOf takeSampler (pipelineRecs .SPT id id ["a_b c_d".data] pExC6) ⊆
        nonterminalNodesOf (pipelineRecs .SPT id id ["a_b c_d".data] pExC6))) :=
  ⟨⟨by decide, by decide, by decide, by decide, by decide⟩,
    claim_C6_amended.1 ["a@1".data, "b@2".data] ["m@1".data] ["a@1".data] ["m@1".data] [] [] 1
      (by decide) (by decide) (by decide) (by decide) (by decide),
    ⟨fun l n => List.take_subset n l,
      claim_C6_amended.2 takeSampler (pipelineRecs .SPT id id ["a_b c_d".data] pExC6)
        fun l n => List.take_subset n l⟩⟩

/-- C7: with every sampling bucket at or below the threshold of 20, the
root-path and leaf-path output token sequences are the same for any two
runs, whatever their `random.sample` oracles do (they are only ever invoked
to draw 0 elements from an empty lower bucket). -/
theorem claim_C7 (des form : Str → Str) (lines : List Str) (p : PNode)
    (sR1 sR2 : List RP → Nat → List RP) (sL1 sL2 : List Str → Nat → List Str)
    (hR1 : sR1 [] 0 = []) (hR2 : sR2 [] 0 = []) (hL1 : sL1 [] 0 = []) (hL2 : sL2 [] 0 = [])
    (h1 : (rootPathBuckets (pipelineRecs .SPT des form lines p)).1.length ≤ 20)
    (h2 : (processPairs .L2L
        (pairsOf (rootPathBuckets (pipelineRecs .SPT des form lines p)).1)
        [] [] []).1.length ≤ 20) :
    code2paths sL1 sR1 des form lines p .rootpath =
      code2paths sL2 sR2 des form lines p .rootpath ∧
    code2paths sL1 sR1 des form lines p .leafpath =
      code2paths sL2 sR2 des form lines p .leafpath := by
  have hb0 : (rootPathBuckets (pipelineRecs .SPT des form lines p)).2 = [] :=
    rootPathBuckets_b0_nil _ (pipelineRecs_value_long .SPT des form lines p)
  constructor
  · simp only [code2paths]
    rw [genRootPaths_eq_b1 sR1 _ hb0 h1 hR1, genRootPaths_eq_b1 sR2 _ hb0 h1 hR2]
  · simp only [code2paths]
    rw [genLeafPaths_det sL1 sR1 .L2L _ hb0 h1 h2 hR1 hL1,
      genLeafPaths_det sL2 sR2 .L2L _ hb0 h1 h2 hR2 hL2]

theorem claim_C7_witness :
    ((rootPathBuckets (pipelineRecs .SPT id id ["a b".data] pExC2)).1.length ≤ 20 ∧
      (processPairs .L2L
        (pairsOf (rootPathBuckets (pipelineRecs .SPT id id ["a b".data] pExC2)).1)
        [] [] []).1.length ≤ 20) ∧
    (code2paths takeSampler takeSampler id id ["a b".data] pExC2 .rootpath =
      code2paths revSampler revSampler id id ["a b".data] pExC2 .rootpath ∧
    code2paths takeSampler takeSampler id id ["a b".data] pExC2 .leafpath =
      code2paths revSampler revSampler id id ["a b".data] pExC2 .leafpath) :=
  ⟨⟨by decide, by decide⟩,
    claim_C7 id id ["a b".data] pExC2 takeSampler revSampler takeSampler revSampler
      rfl rfl rfl rfl (by decide) (by decide)⟩

/-- C8: if rendering the left-child/right-sibling serialization exhausts the
recursion depth limit (fuel), `gen_lcrs_representation` returns exactly the
structure-based tokenization of the same tree instead of propagating the
failure. -/
theorem claim_C8 (fuel : Nat) (t : TSTree) (h : genLcrs fuel t [] = none) :
    genLcrsRepresentation fuel t = genSbtRepresentation t := by
  unfold genLcrsRepresentation
  rw [h]

theorem claim_C8_witness :
    genLcrs 1 (build id id ["ab".data] pExC3) [] = none ∧
    genLcrsRepresentation 1 (build id id ["ab".data] pExC3) =
      genSbtRepresentation (build id id ["ab".data] pExC3) :=
  ⟨by decide, claim_C8 1 _ (by decide)⟩

/-- C9, counterexample: the claim says `is_branch_start` is true exactly for
first children after the build; on the concrete tree `pExC3` the root's
first child has the flag `false` — `traverse` never writes the field. -/
theorem claim_C9_counterexample :
    ((build id id ["ab".data] pExC3).children.headD (.mk [] [] [] false [])).eldest = false ∧
    (build id id ["ab".data] pExC3).children.isEmpty = false := by
  decide

/-- C9, amended: after the tree build completes, every node's
`is_branch_start` flag is `false` — the field is initialized `False` and the
build never writes it; first-child status lives only in the LC-RS links and
the eldest counter. -/
theorem claim_C9_amended (des form : Str → Str) (lines : List Str) (p : PNode) :
    ∀ n ∈ allNodes (build des form lines p), n.eldest = false := by
  intro n hn
  exact allNodesAux_eldest _ _ (buildAux_eldestFree des form lines (psize p) p) n hn

theorem claim_C9_amended_witness :
    build id id ["ab".data] pExC3 ∈ allNodes (build id id ["ab".data] pExC3) ∧
    (build id id ["ab".data] pExC3).eldest = false :=
  ⟨List.mem_cons_self _ _,
    claim_C9_amended id id ["ab".data] pExC3 _ (List.mem_cons_self _ _)⟩

theorem getD_last : ∀ (l : List Str) (h : l ≠ []), l.getD (l.length - 1) [] = l.getLast h := by
  intro l
  induction l with
  | nil => intro h; exact absurd rfl h
  | cons a t ih =>
    intro h
    cases t with
    | nil => rfl
    | cons b t' =>
      have hlen : (a :: b :: t').length - 1 = (b :: t').length - 1 + 1 := by
        simp
      rw [hlen, List.getD_cons_succ, List.getLast_cons (by simp : b :: t' ≠ [])]
      exact ih (by simp)

/-- C10: when the two ancestor sequences already differ at their first
element (longest common prefix length 0) and the first is non-empty,
`merge_paths` returns the whole reversed first sequence as prefix, the whole
second sequence as suffix, and — through Python's negative indexing
`u_path[-1]` — the LAST element of the first sequence as `lca`; with an
empty common prefix this label is not a common ancestor of the two paths. -/
theorem claim_C10 (u v : List Str) (hu : u ≠ []) (hd : u.head? ≠ v.head?) :
    lcpLen u v = 0 ∧ mergePaths u v = (u.reverse, u.getLast hu, v) := by
  have hl : lcpLen u v = 0 := by
    cases u with
    | nil => exact absurd rfl hu
    | cons a u' =>
      cases v with
      | nil => rfl
      | cons b v' =>
        have hab : a ≠ b := by simpa using hd
        simp [lcpLen, hab]
  refine ⟨hl, ?_⟩
  simp only [mergePaths, hl, List.drop_zero]
  have hget : pyGet u ((0 : Nat) - 1 : Int) = u.getLast hu := by
    unfold pyGet
    rw [if_neg (by norm_num)]
    have h1 : ((-((0 : Nat) - 1 : Int))).toNat = 1 := by norm_num
    rw [h1, getD_last u hu]
  rw [hget]

theorem claim_C10_witness :
    (["a".data] ≠ ([] : List Str)) ∧ (["a".data].head? ≠ ["b".data].head?) ∧
    lcpLen ["a".data] ["b".data] = 0 ∧
    mergePaths ["a".data] ["b".data] = (["a".data], "a".data, ["b".data]) := by
  have h := claim_C10 ["a".data] ["b".data] (by decide) (by decide)
  refine ⟨by decide, by decide, h.1, ?_⟩
  rw [h.2]
  decide

end CsnStats
